import Mathlib

/-!
Shallow embedding of `src/docs/snippets/fractal_lfo.rs`.

Modelling conventions:
* `f32` values are modelled as exact rationals `ℚ`; floating-point rounding is
  out of scope of the claims treated here, which concern the structure of the
  arithmetic (positions, indices, scaling), not rounding error.
* The two `f32` primitives that have no rational counterpart — `f32::to_bits`
  and `f32::sin` — are abstract parameters `to_bits : ℚ → ℕ` and `sinf : ℚ → ℚ`
  of every definition that (transitively) calls `random_offset`.  Where a claim
  needs a property of the sine (its range), it is taken as a hypothesis
  `∀ x, |sinf x| ≤ 1`, which holds for the real `sin`.
* Rust's `%` on floats is the remainder with the sign of the dividend
  (`a - b * trunc (a / b)`), modelled by `rustRem`.
* Rust's saturating float-to-`usize` cast (`as usize`: negative values go to
  `0`, values above `usize::MAX` go to `usize::MAX`, on a 64-bit target)
  is modelled by `floorToUsize` applied to an already floored value.
* Rust list indexing `v[i]` appears only at the two indices computed in
  `next`; both are proved to be in bounds whenever the sequence is non-empty,
  and are modelled with `List.getD _ _ 0`.
-/

/-- Rust `x.clamp (lo) (hi)` for `lo ≤ hi` (no NaN in the rational model). -/
def rclamp (x lo hi : ℚ) : ℚ := min (max x lo) hi

/-- Truncation of a rational toward zero, as Rust float `trunc`. -/
def ratTrunc (q : ℚ) : ℤ := if q < 0 then ⌈q⌉ else ⌊q⌋

/-- Rust `a % b` on floats: the remainder with the sign of the dividend,
`a - b * trunc (a / b)`. -/
def rustRem (a b : ℚ) : ℚ := a - b * (ratTrunc (a / b) : ℚ)

/-- Rust `q as usize` applied to an already-integral float `q` (such as
`position.floor()`): saturating cast, negative values to `0`, values above
`usize::MAX` to `usize::MAX` (64-bit target). -/
def floorToUsize (q : ℚ) : ℕ := min (Int.toNat ⌊q⌋) (2 ^ 64 - 1)

/-- Rust `fn random_offset(scale: f32) -> f32`:
`let seed = scale.to_bits() as f32 * 12_345.6789;`
`(seed.sin() * 43758.5453).sin() * scale`.
The `f32` primitives `to_bits` and `sin` are abstract parameters. -/
def random_offset (to_bits : ℚ → ℕ) (sinf : ℚ → ℚ) (scale : ℚ) : ℚ :=
  let seed : ℚ := (to_bits scale : ℚ) * (123456789 / 10000)
  sinf (sinf seed * (437585453 / 10000)) * scale

/-- Rust `struct FractalGenerator { iterations: usize }`. -/
structure FractalGenerator where
  iterations : ℕ
deriving DecidableEq

/-- Rust `FractalGenerator::new`. -/
def FractalGenerator.new (iterations : ℕ) : FractalGenerator :=
  { iterations := iterations }

/-- The inner `for window in points.windows(2)` loop of `generate`: for each
adjacent pair it pushes the left endpoint and the clamped displaced midpoint.
`random_offset` is called once per window with the same `amplitude`. -/
def subdivideWindows (to_bits : ℚ → ℕ) (sinf : ℚ → ℚ) (amplitude : ℚ) :
    List ℚ → List ℚ
  | left :: right :: rest =>
      left ::
        rclamp ((left + right) * (1 / 2) + random_offset to_bits sinf amplitude)
          (-1) 1 ::
        subdivideWindows to_bits sinf amplitude (right :: rest)
  | _ => []

/-- One iteration of the outer loop of `generate`: the windows pass followed by
`next_points.push(*points.last().unwrap())`. -/
def subdividePass (to_bits : ℚ → ℕ) (sinf : ℚ → ℚ) (amplitude : ℚ)
    (points : List ℚ) : List ℚ :=
  subdivideWindows to_bits sinf amplitude points ++ [(points.getLast?).getD 0]

/-- The outer `for _ in 0..self.iterations` loop of `generate`, threading the
current `points` and `amplitude` (halved after each pass, `amplitude *= 0.5`). -/
def FractalGenerator.generateAux (to_bits : ℚ → ℕ) (sinf : ℚ → ℚ) :
    ℕ → List ℚ → ℚ → List ℚ
  | 0, points, _ => points
  | n + 1, points, amplitude =>
      FractalGenerator.generateAux to_bits sinf n
        (subdividePass to_bits sinf amplitude points) (amplitude * (1 / 2))

/-- Rust `FractalGenerator::generate`: starts from `vec![-1.0, 1.0]` and
amplitude `1.0`, then runs `iterations` subdivision passes. -/
def FractalGenerator.generate (g : FractalGenerator) (to_bits : ℚ → ℕ)
    (sinf : ℚ → ℚ) : List ℚ :=
  FractalGenerator.generateAux to_bits sinf g.iterations [-1, 1] 1

/-- Rust `struct FractalLFO`. -/
structure FractalLFO where
  fractal_points : List ℚ
  position : ℚ
  step : ℚ
  depth : ℚ
  sample_rate : ℚ
deriving DecidableEq

/-- Rust `FractalLFO::new`: generates the sequence, computes
`step = rate / sample_rate * (fractal_points.len() as f32)` and starts at
`position = 0.0`.  Note there is no validation of `sample_rate`; in the
rational model `rate / 0 = 0` where `f32` would produce `±inf`/NaN. -/
def FractalLFO.new (to_bits : ℚ → ℕ) (sinf : ℚ → ℚ)
    (rate depth sample_rate : ℚ) (iterations : ℕ) : FractalLFO :=
  let generator := FractalGenerator.new iterations
  let fractal_points := generator.generate to_bits sinf
  let step := rate / sample_rate * (fractal_points.length : ℚ)
  { fractal_points := fractal_points
    position := 0
    step := step
    depth := depth
    sample_rate := sample_rate }

/-- Rust `FractalLFO::set_params`: sets `depth` and recomputes `step`; no other
field is written. -/
def FractalLFO.set_params (lfo : FractalLFO) (rate depth : ℚ) : FractalLFO :=
  { lfo with
    depth := depth
    step := rate / lfo.sample_rate * (lfo.fractal_points.length : ℚ) }

/-- The index `integer` computed in `FractalLFO::next`:
`self.position.floor() as usize % self.fractal_points.len()`. -/
def FractalLFO.integer (lfo : FractalLFO) : ℕ :=
  floorToUsize lfo.position % lfo.fractal_points.length

/-- The index `next_index` computed in `FractalLFO::next`:
`(integer + 1) % self.fractal_points.len()`. -/
def FractalLFO.next_index (lfo : FractalLFO) : ℕ :=
  (lfo.integer + 1) % lfo.fractal_points.length

/-- Rust `FractalLFO::next`: returns the produced sample and the updated
oscillator state.  The position update is
`self.position = (self.position + self.step) % len` with the f32 `%`. -/
def FractalLFO.next (lfo : FractalLFO) : ℚ × FractalLFO :=
  let len : ℚ := (lfo.fractal_points.length : ℚ)
  let frac : ℚ := lfo.position - (⌊lfo.position⌋ : ℚ)
  let current : ℚ := lfo.fractal_points.getD lfo.integer 0
  let next : ℚ := lfo.fractal_points.getD lfo.next_index 0
  let interpolated : ℚ := current + frac * (next - current)
  (interpolated * lfo.depth,
    { lfo with position := rustRem (lfo.position + lfo.step) len })

/-- A sample oscillator state used to instantiate hypotheses of the theorems
below at a concrete input. -/
def sampleLFO : FractalLFO :=
  { fractal_points := [-1, 1]
    position := 1 / 2
    step := 1
    depth := 3
    sample_rate := 10 }

/-- An oscillator state playing backward (negative `step`, as produced by a
negative `rate`): sequence `[-1, 1]`, position `0`, step `-1`. -/
def revLFO : FractalLFO :=
  { fractal_points := [-1, 1]
    position := 0
    step := -1
    depth := 1
    sample_rate := 1 }

/-- Ceiling in terms of floor, used to evaluate `ratTrunc` at negative inputs. -/
theorem ceil_eq_neg_floor_neg (q : ℚ) : ⌈q⌉ = -⌊-q⌋ := by
  rw [← Int.ceil_neg, neg_neg]

example : rustRem (-1) 2 = -1 := by norm_num [rustRem, ratTrunc]
example : rustRem 5 2 = 1 := by norm_num [rustRem, ratTrunc]
example : rustRem (-5/2) 2 = -1/2 := by
  have h : (⌈(-(5/4) : ℚ)⌉ : ℤ) = -⌊(5/4 : ℚ)⌋ := Int.ceil_neg
  norm_num [rustRem, ratTrunc, h]
example : floorToUsize (-1/2) = 0 := by norm_num [floorToUsize]
example :
    (FractalGenerator.new 1).generate (fun _ => 0) (fun _ => 0) = [-1, 0, 1] := by
  norm_num [FractalGenerator.generate, FractalGenerator.new,
    FractalGenerator.generateAux, subdividePass, subdivideWindows, rclamp,
    random_offset, max_def, min_def]

/-! Length of the generated sequence. -/

theorem subdivideWindows_length (to_bits : ℚ → ℕ) (sinf : ℚ → ℚ) (amplitude : ℚ) :
    ∀ l : List ℚ,
      (subdivideWindows to_bits sinf amplitude l).length = 2 * (l.length - 1)
  | [] => rfl
  | [_] => rfl
  | x :: y :: r => by
    have ih := subdivideWindows_length to_bits sinf amplitude (y :: r)
    simp only [subdivideWindows, List.length_cons] at ih ⊢
    omega

theorem subdividePass_length (to_bits : ℚ → ℕ) (sinf : ℚ → ℚ) (amplitude : ℚ)
    (l : List ℚ) :
    (subdividePass to_bits sinf amplitude l).length = 2 * (l.length - 1) + 1 := by
  simp [subdividePass, subdivideWindows_length]

theorem subdividePass_ne_nil (to_bits : ℚ → ℕ) (sinf : ℚ → ℚ) (amplitude : ℚ)
    (l : List ℚ) : subdividePass to_bits sinf amplitude l ≠ [] := by
  simp [subdividePass]

theorem generateAux_length (to_bits : ℚ → ℕ) (sinf : ℚ → ℚ) :
    ∀ (n : ℕ) (points : List ℚ) (amplitude : ℚ), points ≠ [] →
      (FractalGenerator.generateAux to_bits sinf n points amplitude).length
        = 2 ^ n * (points.length - 1) + 1
  | 0, points, _, h => by
    have h1 : 0 < points.length := List.length_pos.mpr h
    simp only [FractalGenerator.generateAux, pow_zero, one_mul]
    omega
  | n + 1, points, amplitude, h => by
    have ih := generateAux_length to_bits sinf n
      (subdividePass to_bits sinf amplitude points) (amplitude * (1 / 2))
      (subdividePass_ne_nil to_bits sinf amplitude points)
    simp only [FractalGenerator.generateAux]
    rw [ih, subdividePass_length]
    have h2 : 2 * (points.length - 1) + 1 - 1 = 2 * (points.length - 1) := by omega
    rw [h2, pow_succ]
    ring

/-- Claim C3: for every non-negative `iterations`, `generate` returns a sequence
of length exactly `2 ^ iterations + 1` (for any model of the f32 `to_bits` and
`sin` primitives). -/
theorem C3_generate_length (to_bits : ℚ → ℕ) (sinf : ℚ → ℚ) (iterations : ℕ) :
    ((FractalGenerator.new iterations).generate to_bits sinf).length
      = 2 ^ iterations + 1 := by
  have h := generateAux_length to_bits sinf iterations [-1, 1] 1 (by simp)
  simpa [FractalGenerator.generate, FractalGenerator.new] using h

/-- Witness for C3 at a concrete input. -/
theorem C3_generate_length_witness :
    ((FractalGenerator.new 3).generate (fun _ => 0) (fun _ => 0)).length
      = 2 ^ 3 + 1 :=
  C3_generate_length (fun _ => 0) (fun _ => 0) 3

/-- Claim C1: `set_params` updates `depth`, recomputes `step` from the new rate
and the stored `sample_rate` and sequence length, and leaves `position` (and
the sequence and `sample_rate`) unchanged, for every state and arguments. -/
theorem C1_set_params_preserves_position (lfo : FractalLFO) (rate depth : ℚ) :
    (lfo.set_params rate depth).position = lfo.position ∧
    (lfo.set_params rate depth).depth = depth ∧
    (lfo.set_params rate depth).step
      = rate / lfo.sample_rate * (lfo.fractal_points.length : ℚ) ∧
    (lfo.set_params rate depth).fractal_points = lfo.fractal_points ∧
    (lfo.set_params rate depth).sample_rate = lfo.sample_rate :=
  ⟨rfl, rfl, rfl, rfl, rfl⟩

/-- Claim C6: `random_offset` is a pure function of its amplitude argument (and
of the fixed f32 primitives): equal amplitudes give identical results. -/
theorem C6_random_offset_deterministic (to_bits : ℚ → ℕ) (sinf : ℚ → ℚ)
    (s₁ s₂ : ℚ) (h : s₁ = s₂) :
    random_offset to_bits sinf s₁ = random_offset to_bits sinf s₂ := by
  rw [h]

/-- Witness for C6 at a concrete input. -/
theorem C6_random_offset_deterministic_witness :
    random_offset (fun _ => 0) (fun _ => 0) 1
      = random_offset (fun _ => 0) (fun _ => 0) 1 :=
  C6_random_offset_deterministic (fun _ => 0) (fun _ => 0) 1 1 rfl

/-- Claim C10: the magnitude of `random_offset scale` is at most the magnitude
of `scale`, because the final factor is a sine value (of magnitude at most one)
times `scale`. -/
theorem C10_random_offset_magnitude_le (to_bits : ℚ → ℕ) (sinf : ℚ → ℚ)
    (hsin : ∀ x, |sinf x| ≤ 1) (scale : ℚ) :
    |random_offset to_bits sinf scale| ≤ |scale| := by
  have h :=
    hsin (sinf ((to_bits scale : ℚ) * (123456789 / 10000)) * (437585453 / 10000))
  calc |random_offset to_bits sinf scale|
      = |sinf (sinf ((to_bits scale : ℚ) * (123456789 / 10000))
          * (437585453 / 10000))| * |scale| := by
        simp only [random_offset]
        exact abs_mul _ _
    _ ≤ 1 * |scale| := mul_le_mul_of_nonneg_right h (abs_nonneg _)
    _ = |scale| := one_mul _

/-- Witness for C10 at a concrete input (the zero function has sine range). -/
theorem C10_random_offset_magnitude_le_witness :
    |random_offset (fun _ => 0) (fun _ => 0) 2| ≤ |(2 : ℚ)| :=
  C10_random_offset_magnitude_le (fun _ => 0) (fun _ => 0)
    (fun x => by norm_num) 2

/-- Claim C8: given a non-empty sequence, both indices computed in `next` are
strictly less than the sequence length, so no out-of-range access can occur
(and `next`/`set_params`, which contain no other partial operation, are total). -/
theorem C8_next_indices_in_bounds (lfo : FractalLFO)
    (h : lfo.fractal_points ≠ []) :
    lfo.integer < lfo.fractal_points.length ∧
    lfo.next_index < lfo.fractal_points.length := by
  have hpos : 0 < lfo.fractal_points.length := List.length_pos.mpr h
  exact ⟨Nat.mod_lt _ hpos, Nat.mod_lt _ hpos⟩

/-- Witness for C8 at a concrete input. -/
theorem C8_next_indices_in_bounds_witness :
    sampleLFO.integer < sampleLFO.fractal_points.length ∧
    sampleLFO.next_index < sampleLFO.fractal_points.length :=
  C8_next_indices_in_bounds sampleLFO (by simp [sampleLFO])

/-- Claim C9: for a fixed position and sequence, doubling the `depth` field
exactly doubles the value returned by `next` (exact in the rational model;
excluding f32 overflow). -/
theorem C9_depth_doubling (lfo : FractalLFO) :
    (FractalLFO.next { lfo with depth := 2 * lfo.depth }).1
      = 2 * (FractalLFO.next lfo).1 := by
  simp only [FractalLFO.next, FractalLFO.integer, FractalLFO.next_index]
  ring

/-- Claim C5: the code performs no validation at construction: `new` with
`sample_rate = 0` still returns a fully constructed oscillator (in the rational
model `1 / 0 = 0` so `step = 0`; in `f32` the same division yields `+inf`,
which is silently stored in `step`).  There is no error path in `new`. -/
theorem C5_new_does_not_validate_sample_rate :
    FractalLFO.new (fun _ => 0) (fun _ => 0) 1 1 0 0
      = { fractal_points := [-1, 1]
          position := 0
          step := 0
          depth := 1
          sample_rate := 0 } := by
  norm_num [FractalLFO.new, FractalGenerator.generate, FractalGenerator.new,
    FractalGenerator.generateAux]

/-! Bounds and endpoint preservation of the generated sequence. -/

theorem rclamp_le_one (x : ℚ) : rclamp x (-1) 1 ≤ 1 := min_le_right _ _

theorem neg_one_le_rclamp (x : ℚ) : -1 ≤ rclamp x (-1) 1 :=
  le_min (le_max_right _ _) (by norm_num)

theorem mem_subdivideWindows (to_bits : ℚ → ℕ) (sinf : ℚ → ℚ) (amplitude : ℚ) :
    ∀ (l : List ℚ) (x : ℚ), x ∈ subdivideWindows to_bits sinf amplitude l →
      x ∈ l ∨ ∃ y : ℚ, x = rclamp y (-1) 1
  | [], x, hx => by simp [subdivideWindows] at hx
  | [a], x, hx => by simp [subdivideWindows] at hx
  | a :: b :: r, x, hx => by
    simp only [subdivideWindows, List.mem_cons] at hx
    rcases hx with rfl | rfl | hx
    · exact Or.inl (List.mem_cons_self _ _)
    · exact Or.inr ⟨_, rfl⟩
    · rcases mem_subdivideWindows to_bits sinf amplitude (b :: r) x hx with h | h
      · exact Or.inl (List.mem_cons_of_mem _ h)
      · exact Or.inr h

theorem subdivideWindows_bounds (to_bits : ℚ → ℕ) (sinf : ℚ → ℚ)
    (amplitude : ℚ) (l : List ℚ) (hl : ∀ x ∈ l, -1 ≤ x ∧ x ≤ 1) :
    ∀ x ∈ subdivideWindows to_bits sinf amplitude l, -1 ≤ x ∧ x ≤ 1 := by
  intro x hx
  rcases mem_subdivideWindows to_bits sinf amplitude l x hx with h | ⟨y, rfl⟩
  · exact hl x h
  · exact ⟨neg_one_le_rclamp y, rclamp_le_one y⟩

theorem getLast?_getD_bounds (l : List ℚ) (hl : ∀ x ∈ l, -1 ≤ x ∧ x ≤ 1) :
    -1 ≤ (l.getLast?).getD 0 ∧ (l.getLast?).getD 0 ≤ 1 := by
  rcases eq_or_ne l [] with rfl | h
  · norm_num
  · rw [List.getLast?_eq_getLast_of_ne_nil h]
    exact hl _ (List.getLast_mem h)

theorem subdividePass_bounds (to_bits : ℚ → ℕ) (sinf : ℚ → ℚ) (amplitude : ℚ)
    (l : List ℚ) (hl : ∀ x ∈ l, -1 ≤ x ∧ x ≤ 1) :
    ∀ x ∈ subdividePass to_bits sinf amplitude l, -1 ≤ x ∧ x ≤ 1 := by
  intro x hx
  rcases List.mem_append.mp hx with h | h
  · exact subdivideWindows_bounds to_bits sinf amplitude l hl x h
  · have hx' : x = (l.getLast?).getD 0 := by simpa using h
    exact hx' ▸ getLast?_getD_bounds l hl

theorem subdividePass_head? (to_bits : ℚ → ℕ) (sinf : ℚ → ℚ) (amplitude : ℚ) :
    ∀ l : List ℚ, l ≠ [] →
      (subdividePass to_bits sinf amplitude l).head? = l.head?
  | [], h => absurd rfl h
  | [a], _ => by simp [subdividePass, subdivideWindows]
  | a :: b :: r, _ => by simp [subdividePass, subdivideWindows]

theorem subdividePass_getLast? (to_bits : ℚ → ℕ) (sinf : ℚ → ℚ)
    (amplitude : ℚ) (l : List ℚ) (h : l ≠ []) :
    (subdividePass to_bits sinf amplitude l).getLast? = l.getLast? := by
  rw [subdividePass, List.getLast?_concat, List.getLast?_eq_getLast_of_ne_nil h]
  rfl

theorem generateAux_ne_nil (to_bits : ℚ → ℕ) (sinf : ℚ → ℚ) :
    ∀ (n : ℕ) (points : List ℚ) (amplitude : ℚ), points ≠ [] →
      FractalGenerator.generateAux to_bits sinf n points amplitude ≠ []
  | 0, _, _, h => h
  | n + 1, points, amplitude, _ =>
    generateAux_ne_nil to_bits sinf n _ _
      (subdividePass_ne_nil to_bits sinf amplitude points)

theorem generateAux_bounds (to_bits : ℚ → ℕ) (sinf : ℚ → ℚ) :
    ∀ (n : ℕ) (points : List ℚ) (amplitude : ℚ),
      (∀ x ∈ points, -1 ≤ x ∧ x ≤ 1) →
      ∀ x ∈ FractalGenerator.generateAux to_bits sinf n points amplitude,
        -1 ≤ x ∧ x ≤ 1
  | 0, _, _, h => h
  | n + 1, points, amplitude, h =>
    generateAux_bounds to_bits sinf n _ _
      (subdividePass_bounds to_bits sinf amplitude points h)

theorem generateAux_head? (to_bits : ℚ → ℕ) (sinf : ℚ → ℚ) :
    ∀ (n : ℕ) (points : List ℚ) (amplitude : ℚ), points ≠ [] →
      (FractalGenerator.generateAux to_bits sinf n points amplitude).head?
        = points.head?
  | 0, _, _, _ => rfl
  | n + 1, points, amplitude, h =>
    (generateAux_head? to_bits sinf n _ _
        (subdividePass_ne_nil to_bits sinf amplitude points)).trans
      (subdividePass_head? to_bits sinf amplitude points h)

theorem generateAux_getLast? (to_bits : ℚ → ℕ) (sinf : ℚ → ℚ) :
    ∀ (n : ℕ) (points : List ℚ) (amplitude : ℚ), points ≠ [] →
      (FractalGenerator.generateAux to_bits sinf n points amplitude).getLast?
        = points.getLast?
  | 0, _, _, _ => rfl
  | n + 1, points, amplitude, h =>
    (generateAux_getLast? to_bits sinf n _ _
        (subdividePass_ne_nil to_bits sinf amplitude points)).trans
      (subdividePass_getLast? to_bits sinf amplitude points h)

/-- Claim C4: every element of the generated sequence lies in `[-1, 1]`, and
its first and last elements are exactly `-1` and `1`, for every `iterations`
(including `0`) and every model of the f32 primitives. -/
theorem C4_generate_bounds_and_endpoints (to_bits : ℚ → ℕ) (sinf : ℚ → ℚ)
    (iterations : ℕ) (x : ℚ)
    (hx : x ∈ (FractalGenerator.new iterations).generate to_bits sinf) :
    (-1 ≤ x ∧ x ≤ 1) ∧
    ((FractalGenerator.new iterations).generate to_bits sinf).head?
      = some (-1) ∧
    ((FractalGenerator.new iterations).generate to_bits sinf).getLast?
      = some 1 := by
  have h0 : ∀ y ∈ ([-1, 1] : List ℚ), -1 ≤ y ∧ y ≤ 1 := by
    intro y hy
    rcases List.mem_cons.mp hy with rfl | hy
    · norm_num
    · rcases List.mem_cons.mp hy with rfl | hy
      · norm_num
      · simp at hy
  have hne : ([-1, 1] : List ℚ) ≠ [] := by simp
  exact ⟨generateAux_bounds to_bits sinf iterations [-1, 1] 1 h0 x hx,
    generateAux_head? to_bits sinf iterations [-1, 1] 1 hne,
    generateAux_getLast? to_bits sinf iterations [-1, 1] 1 hne⟩

/-- Witness for C4 at a concrete input. -/
theorem C4_generate_bounds_and_endpoints_witness :
    (-1 ≤ (1 : ℚ) ∧ (1 : ℚ) ≤ 1) ∧
    ((FractalGenerator.new 0).generate (fun _ => 0) (fun _ => 0)).head?
      = some (-1) ∧
    ((FractalGenerator.new 0).generate (fun _ => 0) (fun _ => 0)).getLast?
      = some 1 :=
  C4_generate_bounds_and_endpoints (fun _ => 0) (fun _ => 0) 0 1
    (by simp [FractalGenerator.generate, FractalGenerator.new,
      FractalGenerator.generateAux])

/-! The produced sample is bounded by the depth. -/

theorem getD_bounds (l : List ℚ) (hl : ∀ x ∈ l, -1 ≤ x ∧ x ≤ 1) (i : ℕ) :
    -1 ≤ l.getD i 0 ∧ l.getD i 0 ≤ 1 := by
  rw [List.getD_eq_getElem?_getD]
  rcases h : l[i]? with _ | y
  · norm_num
  · obtain ⟨hlt, rfl⟩ := List.getElem?_eq_some_iff.mp h
    simpa using hl _ (List.getElem_mem hlt)

/-- Claim C7: if every sequence element lies in `[-1, 1]`, the value returned
by `next` has magnitude at most the magnitude of the current `depth`. -/
theorem C7_next_output_bounded_by_depth (lfo : FractalLFO)
    (hb : ∀ x ∈ lfo.fractal_points, -1 ≤ x ∧ x ≤ 1) :
    |(FractalLFO.next lfo).1| ≤ |lfo.depth| := by
  show |(lfo.fractal_points.getD lfo.integer 0
      + (lfo.position - (⌊lfo.position⌋ : ℚ))
        * (lfo.fractal_points.getD lfo.next_index 0
            - lfo.fractal_points.getD lfo.integer 0)) * lfo.depth|
    ≤ |lfo.depth|
  have hfrac1 : 0 ≤ lfo.position - (⌊lfo.position⌋ : ℚ) := by
    have := Int.floor_le lfo.position
    linarith
  have hfrac2 : lfo.position - (⌊lfo.position⌋ : ℚ) < 1 := by
    have := Int.lt_floor_add_one lfo.position
    linarith
  have h1 := getD_bounds lfo.fractal_points hb lfo.integer
  have h2 := getD_bounds lfo.fractal_points hb lfo.next_index
  set c := lfo.fractal_points.getD lfo.integer 0 with hc
  set d := lfo.fractal_points.getD lfo.next_index 0 with hd
  set f := lfo.position - (⌊lfo.position⌋ : ℚ) with hf
  have hinterp : |c + f * (d - c)| ≤ 1 := by
    rw [abs_le]
    constructor
    · nlinarith [mul_nonneg (by linarith : (0:ℚ) ≤ 1 - f)
        (by linarith : (0:ℚ) ≤ 1 + c),
        mul_nonneg hfrac1 (by linarith : (0:ℚ) ≤ 1 + d)]
    · nlinarith [mul_nonneg (by linarith : (0:ℚ) ≤ 1 - f)
        (by linarith : (0:ℚ) ≤ 1 - c),
        mul_nonneg hfrac1 (by linarith : (0:ℚ) ≤ 1 - d)]
  calc |(c + f * (d - c)) * lfo.depth| = |c + f * (d - c)| * |lfo.depth| :=
        abs_mul _ _
    _ ≤ 1 * |lfo.depth| := mul_le_mul_of_nonneg_right hinterp (abs_nonneg _)
    _ = |lfo.depth| := one_mul _

/-- Witness for C7 at a concrete input. -/
theorem C7_next_output_bounded_by_depth_witness :
    |(FractalLFO.next sampleLFO).1| ≤ |sampleLFO.depth| :=
  C7_next_output_bounded_by_depth sampleLFO (by
    intro x hx
    rcases List.mem_cons.mp hx with rfl | hx
    · norm_num
    · rcases List.mem_cons.mp hx with rfl | hx
      · norm_num
      · simp [sampleLFO] at hx)

/-! The position update: remainder with the sign of the dividend. -/

theorem ratTrunc_dist_lt_one (q : ℚ) : |q - (ratTrunc q : ℚ)| < 1 := by
  simp only [ratTrunc]
  split_ifs with h
  · have h1 : q ≤ (⌈q⌉ : ℚ) := Int.le_ceil q
    have h2 : (⌈q⌉ : ℚ) < q + 1 := Int.ceil_lt_add_one q
    rw [abs_lt]
    constructor <;> linarith
  · have h1 : (⌊q⌋ : ℚ) ≤ q := Int.floor_le q
    have h2 : q < ⌊q⌋ + 1 := Int.lt_floor_add_one q
    rw [abs_lt]
    constructor <;> linarith

theorem rustRem_abs_lt (a b : ℚ) (hb : 0 < b) : |rustRem a b| < b := by
  have hb' : b ≠ 0 := ne_of_gt hb
  have hba : b * (a / b) = a := by
    rw [mul_comm]
    exact div_mul_cancel₀ a hb'
  have key : rustRem a b = b * (a / b - (ratTrunc (a / b) : ℚ)) := by
    simp only [rustRem]
    rw [mul_sub, hba]
  rw [key, abs_mul, abs_of_pos hb]
  calc b * |a / b - (ratTrunc (a / b) : ℚ)| < b * 1 :=
        mul_lt_mul_of_pos_left (ratTrunc_dist_lt_one (a / b)) hb
    _ = b := mul_one b

/-- Claim C2 counterexample: with sequence `[-1, 1]` (length `2`), position `0`
and step `-1` (as arises from a negative rate), the position immediately after
one `next` call is `-1`, which is not in `[0, 2)`: the f32 `%` keeps the sign
of the dividend, so the claim that the reduced position always lies in
`[0, sequence length)` is false. -/
theorem C2_counterexample_position_negative :
    (FractalLFO.next revLFO).2.position = -1 ∧
    ¬ (0 ≤ (FractalLFO.next revLFO).2.position) := by
  have h : (FractalLFO.next revLFO).2.position = -1 := by
    show rustRem (revLFO.position + revLFO.step)
        (revLFO.fractal_points.length : ℚ) = -1
    norm_num [revLFO, rustRem, ratTrunc, ceil_eq_neg_floor_neg]
  refine ⟨h, ?_⟩
  rw [h]
  norm_num

/-- Claim C2 (amended): each `next` call advances `position` by `step` and
reduces it with the f32 remainder (sign of the dividend), so for a non-empty
sequence the resulting position has magnitude strictly less than the sequence
length (it lies in `(-len, len)`, not necessarily in `[0, len)`). -/
theorem C2_next_position_wraps (lfo : FractalLFO)
    (h : lfo.fractal_points ≠ []) :
    (FractalLFO.next lfo).2.position
      = rustRem (lfo.position + lfo.step) (lfo.fractal_points.length : ℚ) ∧
    |(FractalLFO.next lfo).2.position| < (lfo.fractal_points.length : ℚ) := by
  have hpos : (0 : ℚ) < (lfo.fractal_points.length : ℚ) := by
    exact_mod_cast List.length_pos.mpr h
  exact ⟨rfl, rustRem_abs_lt _ _ hpos⟩

/-- Witness for the amended C2 at a concrete input. -/
theorem C2_next_position_wraps_witness :
    (FractalLFO.next revLFO).2.position
      = rustRem (revLFO.position + revLFO.step)
          (revLFO.fractal_points.length : ℚ) ∧
    |(FractalLFO.next revLFO).2.position|
      < (revLFO.fractal_points.length : ℚ) :=
  C2_next_position_wraps revLFO (by simp [revLFO])
